import Mathlib

/-!
Shallow embedding of the autocomplete engine in `autocomplete.py`
(text normalization, positional penalty tables, the bounded single-edit
matcher, index build, candidate selection, per-candidate scoring, and the
top-k ranking pass), together with theorems checking the natural-language
specification against it.

Python strings are modelled as `List Char` (ASCII semantics for
`str.lower`, `str.split`, `str.strip` and `string.punctuation`, which is
exact for the ASCII corpora the program targets).
-/

/-- Python strings, modelled as lists of characters. -/
abbrev Str := List Char

/-- The whitespace characters recognised by Python's `str.split()` /
`str.strip()` (ASCII range). -/
def pyIsSpace (c : Char) : Bool :=
  c = ' ' || c = '\t' || c = '\n' || c = '\r' || c = '\x0b' || c = '\x0c'

/-- Membership in `string.punctuation` (exactly the ASCII codepoint ranges
33–47, 58–64, 91–96 and 123–126); `str.translate(_PUNCT_TABLE)` deletes
these characters. -/
def isPunctChar (c : Char) : Bool :=
  (33 ≤ c.toNat && c.toNat ≤ 47) || (58 ≤ c.toNat && c.toNat ≤ 64) ||
    (91 ≤ c.toNat && c.toNat ≤ 96) || (123 ≤ c.toNat && c.toNat ≤ 126)

/-- Python `str.lower()` on one character (ASCII range). -/
def pyLowerChar (c : Char) : Char :=
  if 65 ≤ c.toNat ∧ c.toNat ≤ 90 then Char.ofNat (c.toNat + 32) else c

/-- Python `s.split()` with no separator: the maximal runs of
non-whitespace characters, in order; runs of whitespace (including leading
and trailing) produce no empty words. -/
def pySplit : Str → List Str
  | [] => []
  | c :: cs =>
    if pyIsSpace c then pySplit cs
    else
      match cs, pySplit cs with
      | [], _ => [[c]]
      | d :: _, ws =>
        if pyIsSpace d then [c] :: ws
        else
          match ws with
          | [] => [[c]]
          | w :: rest => (c :: w) :: rest

/-- Python `" ".join(ws)`: the words with a single space between
consecutive words. -/
def joinSpace : List Str → Str
  | [] => []
  | [w] => w
  | w :: ws => w ++ ' ' :: joinSpace ws

/-- Python `s.strip()`: drop leading and trailing whitespace. -/
def pyStrip (s : Str) : Str :=
  ((s.dropWhile pyIsSpace).reverse.dropWhile pyIsSpace).reverse

/-- The function `normalize_text` from the source:
`" ".join(s.translate(_PUNCT_TABLE).lower().split())` — delete punctuation,
lowercase, split on whitespace, re-join with single spaces. -/
def normalize_text (s : Str) : Str :=
  joinSpace (pySplit ((s.filter (fun c => !isPunctChar c)).map pyLowerChar))

/-- The table `_SUB_PENALTIES` from the source. -/
def SUB_PENALTIES : List Int := [5, 4, 3, 2, 1]

/-- The table `_INSDEL_PENALTIES` from the source. -/
def INSDEL_PENALTIES : List Int := [10, 8, 6, 4, 2]

/-- The function `penalty_for` from the source. `idx = pos - 1` indexes the table when
`idx < len(table)`, otherwise the last entry is used (clamping). For
`pos = 0` Python's `idx = -1` satisfies `idx < len(table)` and
`table[-1]` is the last entry (that argument is only ever produced for
`"exact"` outcomes, which the query path never scores). -/
def penalty_for (kind : String) (pos : Nat) : Int :=
  if kind = "substitution" then
    if pos = 0 then 1
    else if pos - 1 < 5 then SUB_PENALTIES.getD (pos - 1) 0
    else 1
  else if kind = "insertion" ∨ kind = "deletion" then
    if pos = 0 then 2
    else if pos - 1 < 5 then INSDEL_PENALTIES.getD (pos - 1) 0
    else 2
  else 0

/-- The 0-based positions at which two equal-length strings differ:
`[i for i in range(lp) if prefix[i] != candidate[i]]` from the
equal-length branch of `single_edit_match_info`. -/
def diffIdxs : Str → Str → List Nat
  | x :: xs, y :: ys =>
    let rest := (diffIdxs xs ys).map (· + 1)
    if x = y then rest else 0 :: rest
  | _, _ => []

/-- The common-prefix scan `while i < ... and prefix[i] == candidate[i]`
from `single_edit_match_info`: the length of the longest common prefix
(the loop bound is the length of the shorter string in both branches that
use it). -/
def lcpLen : Str → Str → Nat
  | x :: xs, y :: ys => if x = y then lcpLen xs ys + 1 else 0
  | _, _ => 0

/-- The function `single_edit_match_info` from the source. Outcomes: `("exact", 0)`,
`(kind, 1-based position)` for a single edit, `none` for no match. -/
def single_edit_match_info (pre cand : Str) : Option (String × Nat) :=
  if pre = cand then some ("exact", 0)
  else
    let lp := pre.length
    let lc := cand.length
    if lp + 1 < lc ∨ lc + 1 < lp then none
    else if lp = lc then
      match diffIdxs pre cand with
      | [i] => some ("substitution", i + 1)
      | _ => none
    else if lp + 1 = lc then
      let i := lcpLen pre cand
      if pre.drop i = cand.drop (i + 1) then some ("insertion", i + 1) else none
    else if lp = lc + 1 then
      let i := lcpLen pre cand
      if pre.drop (i + 1) = cand.drop i then some ("deletion", i + 1) else none
    else none

example : normalize_text "Hello,  World!".toList = "hello world".toList := by decide
example : normalize_text "!@#$%".toList = [] := by decide
example : single_edit_match_info "abc".toList "abc".toList = some ("exact", 0) := by decide
example : single_edit_match_info "abc".toList "xbc".toList = some ("substitution", 1) := by decide
example : single_edit_match_info "abc".toList "abx".toList = some ("substitution", 3) := by decide
example : single_edit_match_info "abc".toList "xyz".toList = none := by decide
example : single_edit_match_info "a".toList "abcde".toList = none := by decide
example : single_edit_match_info "to pe".toList "to be".toList = some ("substitution", 4) := by decide
example : single_edit_match_info "ab".toList "axb".toList = some ("insertion", 2) := by decide
example : single_edit_match_info "axb".toList "ab".toList = some ("deletion", 2) := by decide
example : single_edit_match_info "a".toList "xa".toList = some ("insertion", 1) := by decide
example : penalty_for "substitution" 4 = 2 := by decide
example : penalty_for "insertion" 7 = 2 := by decide
example : penalty_for "deletion" 1 = 10 := by decide

/-- One stored suggestion: the `AutoCompleteData` dataclass from the
source (`completed_sentence`, `source_text`, `offset`, `score`). The score
is an integer and may be negative. -/
structure AutoCompleteData where
  completed_sentence : Str
  source_text : Str
  offset : Nat
  score : Int
deriving DecidableEq, Repr

/-- The `AutoCompleteSystem` state: `self.sentences` (original stripped
text, source path, line number) and `self.word_index`, a dict from
normalized token keys to lists of sentence ids. The dict is modelled as an
association list with unique keys in insertion order, exactly CPython's
dict semantics. -/
structure AutoCompleteSystem where
  sentences : List (Str × Str × Nat)
  word_index : List (Str × List Nat)
deriving DecidableEq, Repr

/-- The empty system produced by `AutoCompleteSystem.__init__`. -/
def emptySystem : AutoCompleteSystem := ⟨[], []⟩

/-- Dict lookup `self.word_index.get(k, [])`: the id list stored under key `k`, or
`[]` when the key is absent. -/
def lookupIndex (idx : List (Str × List Nat)) (k : Str) : List Nat :=
  match idx.find? (fun e => e.1 == k) with
  | some e => e.2
  | none => []

/-- Dict update `self.word_index.setdefault(k, []).append(sid)`: append `sid` to the
list under key `k`, creating the key (at the end, per dict insertion
order) when absent. -/
def appendIndex : List (Str × List Nat) → Str → Nat → List (Str × List Nat)
  | [], k, sid => [(k, [sid])]
  | e :: rest, k, sid =>
    if e.1 = k then (e.1, e.2 ++ [sid]) :: rest else e :: appendIndex rest k sid

/-- The substring `s[start:start+L]` of a string. -/
def windowAt (s : Str) (start L : Nat) : Str :=
  (s.drop start).take L

/-- The per-word body of the index build loop in `build_from_folder`:
words of length 1 or 2 are inserted whole; words of length ≥ 3 contribute
every contiguous 3-character window (`w[j:j+3]`) as a key. -/
def indexWord (idx : List (Str × List Nat)) (w : Str) (sid : Nat) :
    List (Str × List Nat) :=
  if w.length = 1 ∨ w.length = 2 then appendIndex idx w sid
  else if 3 ≤ w.length then
    (List.range (w.length - 3 + 1)).foldl
      (fun acc j => appendIndex acc (windowAt w j 3) sid) idx
  else idx

/-- The per-line body of `build_from_folder`: strip the line; skip it when
empty; otherwise append the sentence record and index every word of the
normalized stripped text. -/
def addLine (sys : AutoCompleteSystem) (line src : Str) (lineNo : Nat) :
    AutoCompleteSystem :=
  let stripped := pyStrip line
  if stripped = [] then sys
  else
    let sid := sys.sentences.length
    { sentences := sys.sentences ++ [(stripped, src, lineNo)]
      word_index :=
        (pySplit (normalize_text stripped)).foldl
          (fun acc w => indexWord acc w sid) sys.word_index }

/-- The method `build_from_folder` from the source, modelled over the ordered
sequence of `(raw_line, source_path, line_number)` triples that the (file
traversal) collaborator supplies: each line is ingested in order by
`addLine`. -/
def build_from_folder (sys : AutoCompleteSystem)
    (lines : List (Str × Str × Nat)) : AutoCompleteSystem :=
  lines.foldl (fun acc t => addLine acc t.1 t.2.1 t.2.2) sys

/-- Python `p in s` for strings: `p` occurs as a contiguous substring. -/
def pyInStr (p s : Str) : Bool :=
  (List.range (s.length + 1)).any (fun k => windowAt s k p.length = p)

/-- The source iterates `for L in {lp, lp + 1, lp - 1}` over a CPython set
literal of three small non-negative ints (`lp ≥ 1` on the query path, so
the values are three consecutive distinct integers). CPython stores a
small int at slot `value mod 8` of the fresh 8-slot table and yields
elements in slot order, so iteration is ordered by `value mod 8`. -/
def lengthOrder (lp : Nat) : List Nat :=
  (List.range 8).filterMap (fun r => [lp, lp + 1, lp - 1].find? (fun v => v % 8 = r))

/-- The inner window scan of `get_best_k_completions` for one window
length `L`: skip the length when `L ≤ 0` or `L > len(sentence_norm)`,
otherwise try every start offset in increasing order and return the first
non-exact single-edit outcome. -/
def tryWindows (pn sn : Str) (L : Nat) : Option (String × Nat) :=
  if L = 0 ∨ sn.length < L then none
  else
    (List.range (sn.length - L + 1)).findSome? (fun start =>
      match single_edit_match_info pn (windowAt sn start L) with
      | some kp => if kp.1 ≠ "exact" then some kp else none
      | none => none)

/-- The full fuzzy scan of `get_best_k_completions` for one candidate:
the first non-exact single-edit outcome over the three window lengths (in
iteration order) and all start offsets. -/
def firstEdit (pn sn : Str) : Option (String × Nat) :=
  (lengthOrder pn.length).findSome? (tryWindows pn sn)

/-- The per-candidate scoring of `get_best_k_completions`: a containment
hit scores `2 * lp` (and the fuzzy matcher is not consulted); otherwise
the first single-edit window scores `2 * lp - penalty_for(kind, pos)`;
otherwise the candidate contributes nothing. -/
def scoreCandidate (pn sn : Str) : Option Int :=
  if pyInStr pn sn then some (2 * pn.length)
  else (firstEdit pn sn).map (fun kp => 2 * (pn.length : Int) - penalty_for kp.1 kp.2)

/-- The body of the candidate loop in `get_best_k_completions`: the (at
most one) `AutoCompleteData` a sentence record contributes. -/
def candidateContribution (pn : Str) (s : Str × Str × Nat) :
    List AutoCompleteData :=
  match scoreCandidate pn (normalize_text s.1) with
  | some sc => [⟨s.1, s.2.1, s.2.2, sc⟩]
  | none => []

/-- Conversion `list(candidate_idxs)` for the CPython `set` of candidate ids,
modelled as the ids in increasing order without duplicates. CPython's
actual set iteration order can differ from ascending (ids at or above
the hash-table size wrap around, e.g. a set holding 7 and 8 iterates as
8 then 7); that order only influences which of two results with
identical `(-score, lowercased text)` sort keys comes first, which no
property below constrains. -/
def pySetList (l : List Nat) : List Nat :=
  (List.insertionSort (· ≤ ·) l).dedup

/-- Candidate selection in `get_best_k_completions`: a first word of
length 1 or 2 is looked up whole, a longer first word by its first 3
characters; an empty lookup falls back to every sentence id. -/
def selectCandidates (acs : AutoCompleteSystem) (first_word : Str) : List Nat :=
  if first_word.length = 1 ∨ first_word.length = 2 then
    let indices := lookupIndex acs.word_index first_word
    if indices ≠ [] then pySetList indices
    else pySetList (List.range acs.sentences.length)
  else
    let indices :=
      if 3 ≤ first_word.length then lookupIndex acs.word_index (first_word.take 3)
      else []
    if indices ≠ [] then pySetList indices
    else pySetList (List.range acs.sentences.length)

/-- Case-insensitive form used by the sort key:
`x.completed_sentence.lower()`. -/
def lowerStr (s : Str) : Str := s.map pyLowerChar

/-- Lexicographic `≤` on strings by codepoint, as Python compares `str`. -/
def strLeB : Str → Str → Bool
  | [], _ => true
  | _ :: _, [] => false
  | x :: xs, y :: ys => if x = y then strLeB xs ys else decide (x < y)

/-- The sort order of `results.sort(key=lambda x: (-x.score, x.completed_sentence.lower()))`:
score descending, ties by lowercased original text ascending. -/
def resultLEb (x y : AutoCompleteData) : Bool :=
  decide (y.score < x.score) ||
    (decide (x.score = y.score) &&
      strLeB (lowerStr x.completed_sentence) (lowerStr y.completed_sentence))

/-- Relation form of `resultLEb`, for `List.insertionSort`. -/
def resultLE (x y : AutoCompleteData) : Prop := resultLEb x y = true

instance : DecidableRel resultLE :=
  fun x y => inferInstanceAs (Decidable (resultLEb x y = true))

/-- The dedup-and-truncate loop at the end of `get_best_k_completions`:
walk the sorted results, keep a result whose `completed_sentence` was not
seen yet, and break as soon as 5 results are kept. `n` is the number of
results already kept. -/
def dedupLoop : List AutoCompleteData → List Str → Nat → List AutoCompleteData
  | [], _, _ => []
  | r :: rs, seen, n =>
    if seen.contains r.completed_sentence then
      if 5 ≤ n then [] else dedupLoop rs seen n
    else
      r :: (if 5 ≤ n + 1 then [] else dedupLoop rs (r.completed_sentence :: seen) (n + 1))

/-- The ranking pass of `get_best_k_completions`: stable sort by
`(-score, lowercased text)` (Python's stable `list.sort` modelled by the
stable insertion sort) followed by the dedup-and-truncate loop. -/
def rankResults (results : List AutoCompleteData) : List AutoCompleteData :=
  dedupLoop (List.insertionSort resultLE results) [] 0

/-- The method `get_best_k_completions` from the source. Fallible list indexing
(`prefix_norm.split()[0]` and `self.sentences[idx]`) is modelled in
`Option`: the result is `none` exactly where Python would raise, which
the totality theorem rules out for well-formed states. -/
def get_best_k_completions (acs : AutoCompleteSystem) (pre : Str) :
    Option (List AutoCompleteData) :=
  let prefix_norm := normalize_text pre
  if prefix_norm = [] then some []
  else
    match pySplit prefix_norm with
    | [] => none
    | first_word :: _ =>
      ((selectCandidates acs first_word).mapM (fun idx =>
          (acs.sentences[idx]?).map (candidateContribution prefix_norm))).map
        (fun contribs => rankResults contribs.flatten)

/-- The corpus of the worked example in the specification. -/
def toBeSys : AutoCompleteSystem :=
  build_from_folder emptySystem
    [("To be or not to be, that is the question".toList, "f.txt".toList, 0)]

example :
    get_best_k_completions toBeSys "to be".toList =
      some [⟨"To be or not to be, that is the question".toList, "f.txt".toList, 0, 10⟩] := by
  decide

example :
    get_best_k_completions toBeSys "to pe".toList =
      some [⟨"To be or not to be, that is the question".toList, "f.txt".toList, 0, 8⟩] := by
  decide

example :
    get_best_k_completions (build_from_folder emptySystem
        [("xy".toList, "f.txt".toList, 0)]) "a".toList =
      some [⟨"xy".toList, "f.txt".toList, 0, -3⟩] := by
  decide

example : get_best_k_completions toBeSys "".toList = some [] := by decide
example : get_best_k_completions toBeSys "   ".toList = some [] := by decide

/-- Position `i` is the length of the longest common prefix of `a` and `b`, stated
in the specification's terms: the first `i` characters agree and position
`i` does not hold a common character. -/
def IsLcpLen (a b : Str) (i : Nat) : Prop :=
  i ≤ a.length ∧ i ≤ b.length ∧ a.take i = b.take i ∧
    (a[i]? = none ∨ a[i]? ≠ b[i]?)

/-- The window scan of the fuzzy pass, flattened into one list of
`(length, start)` pairs: lengths in the loop's iteration order, start
offsets increasing, invalid lengths (0, or longer than the text)
contributing no windows. -/
def windowScan (pn sn : Str) : List (Nat × Nat) :=
  (lengthOrder pn.length).flatMap (fun L =>
    if L = 0 ∨ sn.length < L then []
    else (List.range (sn.length - L + 1)).map (fun st => (L, st)))

/-- The outcome the scan accepts at one window: a single-edit outcome that
is not `"exact"`. -/
def editAtWindow (pn sn : Str) (w : Nat × Nat) : Option (String × Nat) :=
  match single_edit_match_info pn (windowAt sn w.2 w.1) with
  | some kp => if kp.1 ≠ "exact" then some kp else none
  | none => none

/-- The dedup pass stated plainly: keep a result iff its
`completed_sentence` has not appeared before (first occurrence wins). -/
def keepFirst : List AutoCompleteData → List Str → List AutoCompleteData
  | [], _ => []
  | r :: rs, seen =>
    if seen.contains r.completed_sentence then keepFirst rs seen
    else r :: keepFirst rs (r.completed_sentence :: seen)

/-- Well-formed system state: every sentence id stored in the inverted
index is a valid position into the sentence list. Any state produced by
the build loop satisfies this. -/
def WF (acs : AutoCompleteSystem) : Prop :=
  ∀ e ∈ acs.word_index, ∀ i ∈ e.2, i < acs.sentences.length

/-- The keys of the inverted index, in insertion order. -/
def indexKeys (idx : List (Str × List Nat)) : List Str := idx.map Prod.fst

/-- The keys one word contributes under the two-tier rule: the word
itself when its length is 1 or 2, its contiguous 3-character windows when
its length is at least 3. -/
def WordKey (w k : Str) : Prop :=
  ((w.length = 1 ∨ w.length = 2) ∧ k = w) ∨
    (3 ≤ w.length ∧ ∃ j, j + 3 ≤ w.length ∧ k = windowAt w j 3)

/-- The keys one raw input line contributes: the word keys of the words
of its normalized stripped text. -/
def LineKey (line k : Str) : Prop :=
  ∃ w ∈ pySplit (normalize_text (pyStrip line)), WordKey w k

/-! ## Characterization of the single-edit matcher -/

theorem mem_diffIdxs (a : Str) : ∀ (b : Str) (i : Nat),
    i ∈ diffIdxs a b ↔ ∃ x y, a[i]? = some x ∧ b[i]? = some y ∧ x ≠ y := by
  induction a with
  | nil => intro b i; simp [diffIdxs]
  | cons x xs ih =>
    intro b i
    cases b with
    | nil => simp [diffIdxs]
    | cons y ys =>
      cases i with
      | zero =>
        by_cases hxy : x = y <;>
          simp [diffIdxs, hxy, List.mem_map]
      | succ j =>
        by_cases hxy : x = y <;>
          simp [diffIdxs, hxy, List.mem_map, ih ys j, Nat.succ_inj]

theorem diffIdxs_sorted (a : Str) : ∀ b : Str, (diffIdxs a b).Pairwise (· < ·) := by
  induction a with
  | nil => intro b; simp [diffIdxs]
  | cons x xs ih =>
    intro b
    cases b with
    | nil => simp [diffIdxs]
    | cons y ys =>
      have hmap : ((diffIdxs xs ys).map (· + 1)).Pairwise (· < ·) :=
        (List.pairwise_map).mpr <| (ih ys).imp (by omega)
      by_cases hxy : x = y
      · simpa [diffIdxs, hxy] using hmap
      · have hpos : ∀ j ∈ (diffIdxs xs ys).map (· + 1), 0 < j := by
          intro j hj
          rcases List.mem_map.mp hj with ⟨j', _, rfl⟩
          omega
        simpa [diffIdxs, hxy] using List.Pairwise.cons hpos hmap

theorem nodup_singleton_iff {l : List Nat} (hl : l.Nodup) (i : Nat) :
    l = [i] ↔ i ∈ l ∧ ∀ j ∈ l, j = i := by
  constructor
  · rintro rfl; simp
  · rintro ⟨hi, hall⟩
    cases l with
    | nil => simp at hi
    | cons a rest =>
      have ha := hall a (by simp)
      subst ha
      cases rest with
      | nil => rfl
      | cons b rest2 =>
        have hb := hall b (by simp)
        subst hb
        simp at hl

theorem lcpLen_isLcpLen (a : Str) : ∀ b : Str, IsLcpLen a b (lcpLen a b) := by
  induction a with
  | nil => intro b; exact ⟨by simp [lcpLen], by simp [lcpLen], by simp [lcpLen], by simp⟩
  | cons x xs ih =>
    intro b
    cases b with
    | nil =>
      have h0 : lcpLen (x :: xs) [] = 0 := rfl
      rw [h0]
      exact ⟨by omega, by omega, by simp, Or.inr (by simp)⟩
    | cons y ys =>
      by_cases hxy : x = y
      · obtain ⟨h1, h2, h3, h4⟩ := ih ys
        subst hxy
        refine ⟨by simp [lcpLen]; omega, by simp [lcpLen]; omega, ?_, ?_⟩
        · simp [lcpLen, h3]
        · simpa [lcpLen] using h4
      · refine ⟨by simp [lcpLen, hxy], by simp [lcpLen, hxy], by simp [lcpLen, hxy], ?_⟩
        simp [lcpLen, hxy]

theorem isLcpLen_unique {a b : Str} {i j : Nat}
    (hi : IsLcpLen a b i) (hj : IsLcpLen a b j) : i = j := by
  obtain ⟨hia, hib, hit, his⟩ := hi
  obtain ⟨hja, hjb, hjt, hjs⟩ := hj
  by_contra hne
  rcases Nat.lt_or_ge i j with hlt | hge
  · -- position i sits inside the agreeing prefix of length j
    have hhit : a[i]? = b[i]? := by
      have := congrArg (fun l => l[i]?) hjt
      simpa [List.getElem?_take, hlt] using this
    have hilen : i < a.length := by omega
    have ha : a[i]? = some a[i] := List.getElem?_eq_getElem hilen
    rcases his with h | h
    · rw [ha] at h; cases h
    · exact h hhit
  · have hlt : j < i := by omega
    have hhit : a[j]? = b[j]? := by
      have := congrArg (fun l => l[j]?) hit
      simpa [List.getElem?_take, hlt] using this
    have hjlen : j < a.length := by omega
    have ha : a[j]? = some a[j] := List.getElem?_eq_getElem hjlen
    rcases hjs with h | h
    · rw [ha] at h; cases h
    · exact h hhit

theorem diff_at_of_mem {a b : Str} {i : Nat} (h : i ∈ diffIdxs a b) :
    a[i]? ≠ b[i]? := by
  rcases (mem_diffIdxs a b i).mp h with ⟨x, y, hx, hy, hxy⟩
  rw [hx, hy]
  simpa using hxy

theorem mem_diffIdxs_of_ne {a b : Str} {i : Nat} (hia : i < a.length)
    (hib : i < b.length) (h : a[i]? ≠ b[i]?) : i ∈ diffIdxs a b := by
  refine (mem_diffIdxs a b i).mpr ⟨a[i], b[i], List.getElem?_eq_getElem hia,
    List.getElem?_eq_getElem hib, ?_⟩
  intro hxy
  exact h (by rw [List.getElem?_eq_getElem hia, List.getElem?_eq_getElem hib, hxy])

theorem eq_at_of_not_mem {a b : Str} {i : Nat} (hlen : a.length = b.length)
    (h : i ∉ diffIdxs a b) : a[i]? = b[i]? := by
  by_cases hia : i < a.length
  · by_contra hne
    exact h (mem_diffIdxs_of_ne hia (by omega) hne)
  · rw [List.getElem?_eq_none (by omega), List.getElem?_eq_none (by omega)]

theorem single_edit_self (a : Str) : single_edit_match_info a a = some ("exact", 0) := by
  simp [single_edit_match_info]

theorem single_edit_far {a b : Str}
    (h : a.length + 1 < b.length ∨ b.length + 1 < a.length) :
    single_edit_match_info a b = none := by
  have hne : a ≠ b := by rintro rfl; omega
  simp only [single_edit_match_info, if_neg hne]
  rw [if_pos h]

theorem single_edit_sub_iff {a b : Str} (hlen : a.length = b.length) (p : Nat) :
    single_edit_match_info a b = some ("substitution", p) ↔
      ∃ i, i < a.length ∧ a[i]? ≠ b[i]? ∧ (∀ j, j ≠ i → a[j]? = b[j]?) ∧ p = i + 1 := by
  by_cases hne : a = b
  · subst hne
    rw [single_edit_self]
    simp
  · have hgap : ¬(a.length + 1 < b.length ∨ b.length + 1 < a.length) := by omega
    simp only [single_edit_match_info, if_neg hne, if_neg hgap, if_pos hlen]
    rcases hd : diffIdxs a b with _ | ⟨i, _ | ⟨i2, t⟩⟩
    · simp only [hd]
      constructor
      · intro h; cases h
      · rintro ⟨i, hi, hdiff, _, rfl⟩
        have hmem := mem_diffIdxs_of_ne hi (by omega) hdiff
        rw [hd] at hmem
        cases hmem
    · simp only [hd]
      have hmem : i ∈ diffIdxs a b := by rw [hd]; simp
      constructor
      · intro h
        have hp : p = i + 1 := by
          have := Option.some.inj h
          simpa [eq_comm] using this
        refine ⟨i, ?_, diff_at_of_mem hmem, ?_, hp⟩
        · rcases (mem_diffIdxs a b i).mp hmem with ⟨x, _, hx, _, _⟩
          exact (List.getElem?_eq_some_iff.mp hx).1
        · intro j hj
          refine eq_at_of_not_mem hlen ?_
          rw [hd]
          simpa using hj
      · rintro ⟨i', hi', hdiff', huniq, rfl⟩
        have : i = i' := by
          by_contra hne'
          exact diff_at_of_mem hmem (huniq i hne')
        subst this
        rfl
    · simp only [hd]
      constructor
      · intro h; cases h
      · rintro ⟨i', hi', hdiff', huniq, rfl⟩
        have hm1 : i ∈ diffIdxs a b := by rw [hd]; simp
        have hm2 : i2 ∈ diffIdxs a b := by rw [hd]; simp
        have hne12 : i ≠ i2 := by
          have := diffIdxs_sorted a b
          rw [hd] at this
          have := (List.pairwise_cons.mp this).1 i2 (by simp)
          omega
        have h1 : i = i' := by
          by_contra hx
          exact diff_at_of_mem hm1 (huniq i hx)
        have h2 : i2 = i' := by
          by_contra hx
          exact diff_at_of_mem hm2 (huniq i2 hx)
        omega

theorem single_edit_ins_iff {a b : Str} (hlen : a.length + 1 = b.length)
    {i : Nat} (hlcp : IsLcpLen a b i) (p : Nat) :
    single_edit_match_info a b = some ("insertion", p) ↔
      a.drop i = b.drop (i + 1) ∧ p = i + 1 := by
  have hne : a ≠ b := by intro h; rw [h] at hlen; omega
  have hi : i = lcpLen a b := isLcpLen_unique hlcp (lcpLen_isLcpLen a b)
  subst hi
  have hgap : ¬(a.length + 1 < b.length ∨ b.length + 1 < a.length) := by omega
  have hne2 : ¬(a.length = b.length) := by omega
  simp only [single_edit_match_info, if_neg hne, if_neg hgap, if_neg hne2, if_pos hlen]
  by_cases hdrop : a.drop (lcpLen a b) = b.drop (lcpLen a b + 1)
  · simp [hdrop, eq_comm]
  · simp [hdrop]

theorem single_edit_del_iff {a b : Str} (hlen : b.length + 1 = a.length)
    {i : Nat} (hlcp : IsLcpLen a b i) (p : Nat) :
    single_edit_match_info a b = some ("deletion", p) ↔
      a.drop (i + 1) = b.drop i ∧ p = i + 1 := by
  have hne : a ≠ b := by intro h; rw [h] at hlen; omega
  have hi : i = lcpLen a b := isLcpLen_unique hlcp (lcpLen_isLcpLen a b)
  subst hi
  have hgap : ¬(a.length + 1 < b.length ∨ b.length + 1 < a.length) := by omega
  have hne2 : ¬(a.length = b.length) := by omega
  have hne3 : ¬(a.length + 1 = b.length) := by omega
  have heq4 : a.length = b.length + 1 := by omega
  simp only [single_edit_match_info, if_neg hne, if_neg hgap, if_neg hne2, if_neg hne3,
    if_pos heq4]
  by_cases hdrop : a.drop (lcpLen a b + 1) = b.drop (lcpLen a b)
  · simp [hdrop, eq_comm]
  · simp [hdrop]

theorem single_edit_kinds (a b : Str) :
    single_edit_match_info a b = none ∨
      ∃ k p, single_edit_match_info a b = some (k, p) ∧
        (k = "exact" ∨ k = "substitution" ∨ k = "insertion" ∨ k = "deletion") := by
  by_cases hne : a = b
  · subst hne
    exact Or.inr ⟨"exact", 0, single_edit_self a, Or.inl rfl⟩
  · simp only [single_edit_match_info, if_neg hne]
    split_ifs with h1 h2 h3 h4 h5 h6
    · exact Or.inl rfl
    · rcases hd : diffIdxs a b with _ | ⟨i, _ | ⟨i2, t⟩⟩ <;> simp [hd]
    · exact Or.inr ⟨_, _, rfl, by simp⟩
    · exact Or.inl rfl
    · exact Or.inr ⟨_, _, rfl, by simp⟩
    · exact Or.inl rfl
    · exact Or.inl rfl

theorem single_edit_ne_exact {a b : Str} (hne : a ≠ b) (p : Nat) :
    single_edit_match_info a b ≠ some ("exact", p) := by
  intro h
  simp only [single_edit_match_info, if_neg hne] at h
  split_ifs at h <;>
    first
    | cases h
    | simp at h
    | (rcases hd : diffIdxs a b with _ | ⟨i, _ | ⟨i2, t⟩⟩ <;> rw [hd] at h <;> simp at h)

theorem eq_of_diffIdxs_nil {a b : Str} (hlen : a.length = b.length)
    (h : diffIdxs a b = []) : a = b := by
  refine List.ext_getElem? (fun i => ?_)
  refine eq_at_of_not_mem hlen ?_
  rw [h]
  simp

theorem single_edit_sub_none {a b : Str} (hlen : a.length = b.length)
    (hne : a ≠ b)
    (hno : ¬∃ i, i < a.length ∧ a[i]? ≠ b[i]? ∧ ∀ j, j ≠ i → a[j]? = b[j]?) :
    single_edit_match_info a b = none := by
  have hgap : ¬(a.length + 1 < b.length ∨ b.length + 1 < a.length) := by omega
  simp only [single_edit_match_info, if_neg hne, if_neg hgap, if_pos hlen]
  rcases hd : diffIdxs a b with _ | ⟨i, _ | ⟨i2, t⟩⟩
  · exact absurd (eq_of_diffIdxs_nil hlen hd) hne
  · exfalso
    apply hno
    have hmem : i ∈ diffIdxs a b := by rw [hd]; simp
    refine ⟨i, ?_, diff_at_of_mem hmem, ?_⟩
    · rcases (mem_diffIdxs a b i).mp hmem with ⟨x, _, hx, _, _⟩
      exact (List.getElem?_eq_some_iff.mp hx).1
    · intro j hj
      refine eq_at_of_not_mem hlen ?_
      rw [hd]
      simpa using hj
  · rfl

theorem single_edit_ins_none {a b : Str} (hlen : a.length + 1 = b.length)
    {i : Nat} (hlcp : IsLcpLen a b i) (hdrop : a.drop i ≠ b.drop (i + 1)) :
    single_edit_match_info a b = none := by
  have hne : a ≠ b := by intro h; rw [h] at hlen; omega
  have hi : i = lcpLen a b := isLcpLen_unique hlcp (lcpLen_isLcpLen a b)
  subst hi
  have hgap : ¬(a.length + 1 < b.length ∨ b.length + 1 < a.length) := by omega
  have hne2 : ¬(a.length = b.length) := by omega
  simp only [single_edit_match_info, if_neg hne, if_neg hgap, if_neg hne2, if_pos hlen]
  rw [if_neg hdrop]

theorem single_edit_del_none {a b : Str} (hlen : b.length + 1 = a.length)
    {i : Nat} (hlcp : IsLcpLen a b i) (hdrop : a.drop (i + 1) ≠ b.drop i) :
    single_edit_match_info a b = none := by
  have hne : a ≠ b := by intro h; rw [h] at hlen; omega
  have hi : i = lcpLen a b := isLcpLen_unique hlcp (lcpLen_isLcpLen a b)
  subst hi
  have hgap : ¬(a.length + 1 < b.length ∨ b.length + 1 < a.length) := by omega
  have hne2 : ¬(a.length = b.length) := by omega
  have hne3 : ¬(a.length + 1 = b.length) := by omega
  have heq4 : a.length = b.length + 1 := by omega
  simp only [single_edit_match_info, if_neg hne, if_neg hgap, if_neg hne2, if_neg hne3,
    if_pos heq4]
  rw [if_neg hdrop]

theorem single_edit_exact_iff (a b : Str) :
    single_edit_match_info a b = some ("exact", 0) ↔ a = b := by
  constructor
  · intro h
    by_contra hne
    simp only [single_edit_match_info, if_neg hne] at h
    split_ifs at h <;>
      first
      | cases h
      | simp at h
      | (rcases hd : diffIdxs a b with _ | ⟨i, _ | ⟨i2, t⟩⟩ <;> rw [hd] at h <;> simp at h)
  · rintro rfl
    exact single_edit_self a

/-- C1: `single_edit_match_info` implements the four-branch single-edit
contract, with the result fully determined in every case. For all strings
`a`, `b`: the result is `("exact", p)` iff `a = b` and `p = 0`; the result
is `none` whenever the lengths differ by more than one; for equal lengths
the result is `("substitution", p)` iff exactly one position differs, `p`
being that position 1-based, and `none` when `a ≠ b` without exactly one
mismatch (so two or more mismatches give `none`); for
`len a = len b - 1` the result is `("insertion", i + 1)` — with `i` the
longest-common-prefix length — iff `a[i:] = b[i+1:]`, and `none` when
that remainder check fails; symmetrically `("deletion", i + 1)` for
`len a = len b + 1` iff `a[i+1:] = b[i:]`, with `none` when the check
fails; and the only possible outcomes are these four kinds or `none`. -/
theorem single_edit_contract (a b : Str) :
    (∀ p, single_edit_match_info a b = some ("exact", p) ↔ (a = b ∧ p = 0)) ∧
    (a.length + 1 < b.length ∨ b.length + 1 < a.length →
      single_edit_match_info a b = none) ∧
    (a.length = b.length → ∀ p,
      (single_edit_match_info a b = some ("substitution", p) ↔
        ∃ i, i < a.length ∧ a[i]? ≠ b[i]? ∧ (∀ j, j ≠ i → a[j]? = b[j]?) ∧
          p = i + 1)) ∧
    (a.length = b.length → a ≠ b →
      (¬∃ i, i < a.length ∧ a[i]? ≠ b[i]? ∧ ∀ j, j ≠ i → a[j]? = b[j]?) →
      single_edit_match_info a b = none) ∧
    (a.length + 1 = b.length → ∀ i, IsLcpLen a b i → ∀ p,
      (single_edit_match_info a b = some ("insertion", p) ↔
        a.drop i = b.drop (i + 1) ∧ p = i + 1)) ∧
    (a.length + 1 = b.length → ∀ i, IsLcpLen a b i →
      a.drop i ≠ b.drop (i + 1) → single_edit_match_info a b = none) ∧
    (b.length + 1 = a.length → ∀ i, IsLcpLen a b i → ∀ p,
      (single_edit_match_info a b = some ("deletion", p) ↔
        a.drop (i + 1) = b.drop i ∧ p = i + 1)) ∧
    (b.length + 1 = a.length → ∀ i, IsLcpLen a b i →
      a.drop (i + 1) ≠ b.drop i → single_edit_match_info a b = none) ∧
    (single_edit_match_info a b = none ∨
      ∃ k p, single_edit_match_info a b = some (k, p) ∧
        (k = "exact" ∨ k = "substitution" ∨ k = "insertion" ∨ k = "deletion")) := by
  refine ⟨?_, fun h => single_edit_far h,
    fun hlen p => single_edit_sub_iff hlen p,
    fun hlen hne hno => single_edit_sub_none hlen hne hno,
    fun hlen _ hlcp p => single_edit_ins_iff hlen hlcp p,
    fun hlen _ hlcp hdrop => single_edit_ins_none hlen hlcp hdrop,
    fun hlen _ hlcp p => single_edit_del_iff hlen hlcp p,
    fun hlen _ hlcp hdrop => single_edit_del_none hlen hlcp hdrop,
    single_edit_kinds a b⟩
  intro p
  constructor
  · intro h
    by_cases hab : a = b
    · subst hab
      rw [single_edit_self] at h
      have := Option.some.inj h
      exact ⟨rfl, by simpa [eq_comm] using congrArg Prod.snd this⟩
    · exact absurd h (single_edit_ne_exact hab p)
  · rintro ⟨rfl, rfl⟩
    exact single_edit_self a

/-- Witness for C1: the contract applied to concrete strings, every
hypothesis discharged by evaluation; it pins down a substitution, an
insertion and a deletion outcome, and a `none` outcome at three
mismatches. -/
theorem single_edit_contract_witness :
    single_edit_match_info "abc".toList "axc".toList = some ("substitution", 2) ∧
    single_edit_match_info "ab".toList "axb".toList = some ("insertion", 2) ∧
    single_edit_match_info "axb".toList "ab".toList = some ("deletion", 2) ∧
    single_edit_match_info "abc".toList "xyz".toList = none := by
  refine ⟨?_, ?_, ?_, ?_⟩
  · refine ((single_edit_contract "abc".toList "axc".toList).2.2.1 (by decide) 2).mpr
      ⟨1, by decide, by decide, ?_, rfl⟩
    intro j hj
    match j, hj with
    | 0, _ => rfl
    | 1, h => exact absurd rfl h
    | 2, _ => rfl
    | n + 3, _ => rfl
  · exact ((single_edit_contract "ab".toList "axb".toList).2.2.2.2.1 (by decide) 1
      (by constructor <;> decide) 2).mpr (by decide)
  · exact ((single_edit_contract "axb".toList "ab".toList).2.2.2.2.2.2.1 (by decide) 1
      (by constructor <;> decide) 2).mpr (by decide)
  · refine (single_edit_contract "abc".toList "xyz".toList).2.2.2.1 (by decide)
      (by decide) ?_
    rintro ⟨i, hi, hdiff, huniq⟩
    have h01 : (0 : Nat) ≠ i ∨ (1 : Nat) ≠ i := by omega
    rcases h01 with h | h
    · exact absurd (huniq 0 h) (by decide)
    · exact absurd (huniq 1 h) (by decide)

/-! ## Normalization: split/join structure and idempotence -/

theorem pySplit_cons_space {c : Char} {cs : Str} (h : pyIsSpace c = true) :
    pySplit (c :: cs) = pySplit cs := by
  rw [pySplit.eq_def]
  simp [h]

theorem pySplit_single {c : Char} (h : pyIsSpace c = false) :
    pySplit [c] = [[c]] := by
  rw [pySplit.eq_def]
  simp [h]

theorem pySplit_cons_break {c d : Char} {rest : Str} (hc : pyIsSpace c = false)
    (hd : pyIsSpace d = true) :
    pySplit (c :: d :: rest) = [c] :: pySplit (d :: rest) := by
  rw [pySplit.eq_def]
  simp [hc, hd, pySplit_cons_space hd]

theorem pySplit_cons_glue {c d : Char} {rest : Str} {w : Str} {r : List Str}
    (hc : pyIsSpace c = false) (hd : pyIsSpace d = false)
    (h : pySplit (d :: rest) = w :: r) :
    pySplit (c :: d :: rest) = (c :: w) :: r := by
  rw [pySplit.eq_def]
  simp [hc, hd, h]

theorem pySplit_nonspace_ne_nil {d : Char} {rest : Str} (hd : pyIsSpace d = false) :
    pySplit (d :: rest) ≠ [] := by
  rw [pySplit.eq_def]
  simp only [hd, Bool.false_eq_true, if_false]
  cases rest with
  | nil => simp
  | cons e re =>
    by_cases he : pyIsSpace e
    · simp [he]
    · simp only [he]
      cases pySplit (e :: re) with
      | nil => simp
      | cons w r => simp

theorem pySplit_word {w : Str} (hne : w ≠ [])
    (hsp : ∀ c ∈ w, pyIsSpace c = false) : pySplit w = [w] := by
  induction w with
  | nil => cases hne rfl
  | cons c cs ih =>
    have hc : pyIsSpace c = false := hsp c (by simp)
    cases cs with
    | nil => exact pySplit_single hc
    | cons d rest =>
      have hd : pyIsSpace d = false := hsp d (by simp)
      have hrec := ih (by simp) (fun x hx => hsp x (by simp [hx]))
      rw [pySplit_cons_glue hc hd hrec]

theorem pySplit_append_word {w : Str} (hne : w ≠ [])
    (hsp : ∀ c ∈ w, pyIsSpace c = false) (t : Str) :
    pySplit (w ++ ' ' :: t) = w :: pySplit t := by
  induction w with
  | nil => cases hne rfl
  | cons c cs ih =>
    have hc : pyIsSpace c = false := hsp c (by simp)
    cases cs with
    | nil =>
      have hsp' : pyIsSpace ' ' = true := by simp [pyIsSpace]
      show pySplit (c :: ' ' :: t) = [c] :: pySplit t
      rw [pySplit_cons_break hc hsp', pySplit_cons_space hsp']
    | cons d rest =>
      have hd : pyIsSpace d = false := hsp d (by simp)
      have hrec := ih (by simp) (fun x hx => hsp x (by simp [hx]))
      simp only [List.cons_append] at hrec ⊢
      rw [pySplit_cons_glue hc hd hrec]

theorem pySplit_joinSpace {ws : List Str}
    (h : ∀ w ∈ ws, w ≠ [] ∧ ∀ c ∈ w, pyIsSpace c = false) :
    pySplit (joinSpace ws) = ws := by
  induction ws with
  | nil => rfl
  | cons w ws ih =>
    cases ws with
    | nil =>
      have := h w (by simp)
      exact pySplit_word this.1 this.2
    | cons v ws2 =>
      have hw := h w (by simp)
      have hrec := ih (fun x hx => h x (by simp [hx]))
      show pySplit (w ++ ' ' :: joinSpace (v :: ws2)) = w :: v :: ws2
      rw [pySplit_append_word hw.1 hw.2, hrec]

theorem mem_pySplit_props {s : Str} : ∀ w ∈ pySplit s,
    (w ≠ [] ∧ ∀ c ∈ w, pyIsSpace c = false ∧ c ∈ s) := by
  induction s with
  | nil => simp [pySplit]
  | cons c cs ih =>
    intro w hw
    by_cases hc : pyIsSpace c
    · rw [pySplit_cons_space hc] at hw
      obtain ⟨h1, h2⟩ := ih w hw
      exact ⟨h1, fun x hx => ⟨(h2 x hx).1, by simp [(h2 x hx).2]⟩⟩
    · replace hc : pyIsSpace c = false := by simpa using hc
      cases cs with
      | nil =>
        rw [pySplit_single hc] at hw
        simp only [List.mem_singleton] at hw
        subst hw
        refine ⟨by simp, ?_⟩
        intro x hx
        simp only [List.mem_singleton] at hx
        subst hx
        exact ⟨hc, by simp⟩
      | cons d rest =>
        by_cases hd : pyIsSpace d
        · rw [pySplit_cons_break hc hd] at hw
          rcases List.mem_cons.mp hw with rfl | hmem
          · refine ⟨by simp, ?_⟩
            intro x hx
            simp only [List.mem_singleton] at hx
            subst hx
            exact ⟨hc, by simp⟩
          · obtain ⟨h1, h2⟩ := ih w hmem
            exact ⟨h1, fun x hx => ⟨(h2 x hx).1, by simp [(h2 x hx).2]⟩⟩
        · replace hd : pyIsSpace d = false := by simpa using hd
          rcases hsplit : pySplit (d :: rest) with _ | ⟨w0, rest0⟩
          · exact absurd hsplit (pySplit_nonspace_ne_nil hd)
          · rw [pySplit_cons_glue hc hd hsplit] at hw
            rcases List.mem_cons.mp hw with rfl | hmem
            · have hw0 := ih w0 (by rw [hsplit]; simp)
              refine ⟨by simp, ?_⟩
              intro x hx
              rcases List.mem_cons.mp hx with rfl | hx2
              · exact ⟨hc, by simp⟩
              · exact ⟨(hw0.2 x hx2).1, by simp [(hw0.2 x hx2).2]⟩
            · have := ih w (by rw [hsplit]; simp [hmem])
              exact ⟨this.1, fun x hx => ⟨(this.2 x hx).1, by simp [(this.2 x hx).2]⟩⟩

theorem mem_joinSpace {ws : List Str} {c : Char} (h : c ∈ joinSpace ws) :
    c = ' ' ∨ ∃ w ∈ ws, c ∈ w := by
  induction ws with
  | nil => cases h
  | cons w ws ih =>
    cases ws with
    | nil =>
      exact Or.inr ⟨w, by simp, h⟩
    | cons v ws2 =>
      rcases List.mem_append.mp h with hw | htail
      · exact Or.inr ⟨w, by simp, hw⟩
      · rcases List.mem_cons.mp htail with rfl | h2
        · exact Or.inl rfl
        · rcases ih h2 with h3 | ⟨w', hw', hc⟩
          · exact Or.inl h3
          · exact Or.inr ⟨w', by simp [hw'], hc⟩

theorem toNat_ofNat_of_valid {n : Nat} (h : n.isValidChar) :
    (Char.ofNat n).toNat = n := by
  unfold Char.ofNat
  rw [dif_pos h]
  rfl

theorem pyLowerChar_toNat (c : Char) :
    (pyLowerChar c).toNat =
      if 65 ≤ c.toNat ∧ c.toNat ≤ 90 then c.toNat + 32 else c.toNat := by
  unfold pyLowerChar
  split
  · exact toNat_ofNat_of_valid (Or.inl (by omega))
  · rfl

theorem pyLowerChar_of_not_upper {c : Char}
    (h : ¬(65 ≤ c.toNat ∧ c.toNat ≤ 90)) : pyLowerChar c = c := if_neg h

theorem pyLowerChar_idem (c : Char) :
    pyLowerChar (pyLowerChar c) = pyLowerChar c := by
  by_cases h : 65 ≤ c.toNat ∧ c.toNat ≤ 90
  · have ht : (pyLowerChar c).toNat = c.toNat + 32 := by
      rw [pyLowerChar_toNat, if_pos h]
    exact pyLowerChar_of_not_upper (by omega)
  · simp [pyLowerChar_of_not_upper h]

theorem isPunctChar_iff (c : Char) :
    isPunctChar c = true ↔
      (33 ≤ c.toNat ∧ c.toNat ≤ 47) ∨ (58 ≤ c.toNat ∧ c.toNat ≤ 64) ∨
        (91 ≤ c.toNat ∧ c.toNat ≤ 96) ∨ (123 ≤ c.toNat ∧ c.toNat ≤ 126) := by
  simp [isPunctChar, Bool.or_eq_true, Bool.and_eq_true, decide_eq_true_iff, and_assoc,
    or_assoc]

theorem isPunctChar_pyLowerChar {c : Char} (h : isPunctChar c = false) :
    isPunctChar (pyLowerChar c) = false := by
  rw [Bool.eq_false_iff] at h ⊢
  intro hlow
  rw [Ne, isPunctChar_iff] at h
  rw [isPunctChar_iff, pyLowerChar_toNat] at hlow
  split at hlow <;> omega

theorem normalize_chars {s : Str} {c : Char} (h : c ∈ normalize_text s) :
    isPunctChar c = false ∧ pyLowerChar c = c := by
  unfold normalize_text at h
  rcases mem_joinSpace h with rfl | ⟨w, hw, hc⟩
  · exact ⟨by decide, by decide⟩
  · have hprops := mem_pySplit_props w hw
    have hmem : c ∈ (s.filter (fun c => !isPunctChar c)).map pyLowerChar :=
      (hprops.2 c hc).2
    rcases List.mem_map.mp hmem with ⟨c', hc', rfl⟩
    have hc'p : isPunctChar c' = false := by
      have := List.mem_filter.mp hc'
      simpa using this.2
    exact ⟨isPunctChar_pyLowerChar hc'p, pyLowerChar_idem c'⟩

/-- C9: `normalize_text` is idempotent: normalizing an already-normalized
string changes nothing, for every input string. -/
theorem normalize_text_idempotent (s : Str) :
    normalize_text (normalize_text s) = normalize_text s := by
  have hfilter : (normalize_text s).filter (fun c => !isPunctChar c) = normalize_text s :=
    List.filter_eq_self.mpr (fun c hc => by simp [(normalize_chars hc).1])
  have hmapgen : ∀ l : List Char, (∀ c ∈ l, pyLowerChar c = c) →
      l.map pyLowerChar = l := by
    intro l h
    induction l with
    | nil => rfl
    | cons c cs ih => simp [h c (by simp), ih (fun x hx => h x (by simp [hx]))]
  have hmap : (normalize_text s).map pyLowerChar = normalize_text s :=
    hmapgen _ (fun c hc => (normalize_chars hc).2)
  have hsplit : pySplit (normalize_text s) =
      pySplit ((s.filter (fun c => !isPunctChar c)).map pyLowerChar) := by
    unfold normalize_text
    exact pySplit_joinSpace (fun w hw =>
      ⟨(mem_pySplit_props w hw).1, fun c hc => ((mem_pySplit_props w hw).2 c hc).1⟩)
  conv_lhs => rw [normalize_text]
  rw [hfilter, hmap, hsplit]
  rfl

/-! ## The fuzzy window scan -/

theorem pyInStr_nil (sn : Str) : pyInStr [] sn = true := by
  simp only [pyInStr, List.any_eq_true]
  exact ⟨0, by simp, by simp [windowAt]⟩

theorem mem_lengthOrder {lp : Nat} (L : Nat) (h1 : 1 ≤ lp) :
    L ∈ lengthOrder lp ↔ (L = lp - 1 ∨ L = lp ∨ L = lp + 1) := by
  constructor
  · intro h
    rcases List.mem_filterMap.mp h with ⟨r, _, hf⟩
    have := List.mem_of_find?_eq_some hf
    simp only [List.mem_cons, List.mem_singleton] at this
    tauto
  · intro h
    refine List.mem_filterMap.mpr ⟨L % 8, by simp [List.mem_range]; omega, ?_⟩
    rcases hfind : [lp, lp + 1, lp - 1].find? (fun v => v % 8 = L % 8) with _ | L'
    · rw [List.find?_eq_none] at hfind
      have := hfind L (by simp; omega)
      simp at this
    · have hmem := List.mem_of_find?_eq_some hfind
      have hpred := List.find?_some hfind
      simp only [List.mem_cons, List.mem_singleton, List.not_mem_nil, or_false] at hmem
      simp only [decide_eq_true_eq] at hpred
      have : L' = L := by omega
      rw [this]

theorem findSome?_flatMap_eq {α β γ : Type} (l : List α) (g : α → List β)
    (f : β → Option γ) :
    (l.flatMap g).findSome? f = l.findSome? (fun x => (g x).findSome? f) := by
  induction l with
  | nil => rfl
  | cons x xs ih =>
    rw [List.flatMap_cons, List.findSome?_append, ih]
    cases hx : (g x).findSome? f <;> simp [List.findSome?_cons, hx, Option.or]

theorem findSome?_isSome_iff {α β : Type} (f : α → Option β) (l : List α) :
    (l.findSome? f).isSome = true ↔ ∃ a ∈ l, (f a).isSome = true := by
  constructor
  · intro hs
    rcases Option.isSome_iff_exists.mp hs with ⟨b, hb⟩
    rcases List.exists_of_findSome?_eq_some hb with ⟨a, ha, hfa⟩
    exact ⟨a, ha, by simp [hfa]⟩
  · rintro ⟨a, ha, hfa⟩
    cases h : l.findSome? f with
    | some b => simp
    | none =>
      have := List.findSome?_eq_none_iff.mp h a ha
      simp [this] at hfa

theorem firstEdit_eq_scan (pn sn : Str) :
    firstEdit pn sn = (windowScan pn sn).findSome? (editAtWindow pn sn) := by
  unfold firstEdit windowScan
  rw [findSome?_flatMap_eq]
  congr 1
  funext L
  by_cases hL : L = 0 ∨ sn.length < L
  · simp only [tryWindows, if_pos hL, List.findSome?_nil]
  · simp only [tryWindows, if_neg hL, List.findSome?_map]
    rfl

theorem tryWindows_isSome_iff (pn sn : Str) (L : Nat) :
    (tryWindows pn sn L).isSome = true ↔
      0 < L ∧ L ≤ sn.length ∧ ∃ start, start + L ≤ sn.length ∧
        ∃ k p, single_edit_match_info pn (windowAt sn start L) = some (k, p) ∧
          k ≠ "exact" := by
  unfold tryWindows
  by_cases hL : L = 0 ∨ sn.length < L
  · rw [if_pos hL]
    simp only [Option.isSome_none, Bool.false_eq_true, false_iff]
    rintro ⟨h0, hlen, -⟩
    omega
  · rw [if_neg hL]
    rw [findSome?_isSome_iff]
    constructor
    · rintro ⟨start, hstart, hsome⟩
      refine ⟨by omega, by omega, start, ?_, ?_⟩
      · simp only [List.mem_range] at hstart
        omega
      · rcases hse : single_edit_match_info pn (windowAt sn start L) with _ | ⟨k, p⟩
        · simp [hse] at hsome
        · refine ⟨k, p, rfl, ?_⟩
          by_cases hk : k = "exact"
          · simp [hse, hk] at hsome
          · exact hk
    · rintro ⟨h0, hlen, start, hst, k, p, hse, hk⟩
      refine ⟨start, ?_, ?_⟩
      · simp only [List.mem_range]
        omega
      · simp [hse, hk]

theorem isSome_option_map {α β : Type} (f : α → β) (o : Option α) :
    (o.map f).isSome = o.isSome := by
  cases o <;> rfl

theorem lengthOrder_nodup (lp : Nat) : (lengthOrder lp).Nodup := by
  unfold lengthOrder
  refine List.Nodup.filterMap ?_ (List.nodup_range 8)
  intro r r' v hv hv'
  have h1 := List.find?_some hv
  have h2 := List.find?_some hv'
  simp only [decide_eq_true_eq] at h1 h2
  omega

theorem lengthOrder_perm {lp : Nat} (h1 : 1 ≤ lp) :
    (lengthOrder lp).Perm [lp - 1, lp, lp + 1] := by
  refine List.perm_of_nodup_nodup_toFinset_eq (lengthOrder_nodup lp) (by simp; omega) ?_
  ext v
  simp only [List.mem_toFinset, mem_lengthOrder v h1, List.mem_cons, List.mem_singleton,
    List.not_mem_nil, or_false]

/-- C2: for every candidate whose normalized text does not contain the
normalized query `pn`, the candidate contributes a result iff some window
of the text with length in `{lp - 1, lp, lp + 1}` (lengths 0 or longer
than the text skipped) yields a non-exact single-edit outcome; the
contributed score is `2 * lp - penalty_for(kind, position)` for the first
such window in the scan order (window lengths in the loop's iteration
order — a permutation of the three lengths — and start offsets
increasing within each length); and a candidate contributes at most one
result per query. -/
theorem fuzzy_scan_contract (pn sn : Str) (hnc : pyInStr pn sn = false) :
    ((scoreCandidate pn sn).isSome = true ↔
      ∃ L, (L = pn.length - 1 ∨ L = pn.length ∨ L = pn.length + 1) ∧
        0 < L ∧ L ≤ sn.length ∧ ∃ start, start + L ≤ sn.length ∧
          ∃ k p, single_edit_match_info pn (windowAt sn start L) = some (k, p) ∧
            k ≠ "exact") ∧
    scoreCandidate pn sn =
      ((windowScan pn sn).findSome? (editAtWindow pn sn)).map
        (fun kp => 2 * (pn.length : Int) - penalty_for kp.1 kp.2) ∧
    (lengthOrder pn.length).Perm
      [pn.length - 1, pn.length, pn.length + 1] ∧
    (∀ s : Str × Str × Nat, (candidateContribution pn s).length ≤ 1) := by
  have hlp : 1 ≤ pn.length := by
    rcases pn with _ | ⟨c, cs⟩
    · rw [pyInStr_nil] at hnc
      cases hnc
    · simp
  refine ⟨?_, ?_, ?_, ?_⟩
  · rw [scoreCandidate, if_neg (by simp [hnc])]
    rw [isSome_option_map]
    unfold firstEdit
    rw [findSome?_isSome_iff]
    constructor
    · rintro ⟨L, hL, hsome⟩
      exact ⟨L, (mem_lengthOrder L hlp).mp hL, (tryWindows_isSome_iff pn sn L).mp hsome⟩
    · rintro ⟨L, hL, hrest⟩
      exact ⟨L, (mem_lengthOrder L hlp).mpr hL, (tryWindows_isSome_iff pn sn L).mpr hrest⟩
  · rw [scoreCandidate, if_neg (by simp [hnc]), firstEdit_eq_scan]
  · have horder := lengthOrder_perm hlp
    exact horder
  · intro s
    unfold candidateContribution
    cases scoreCandidate pn (normalize_text s.1) <;> simp

/-- Witness for C2 at a concrete non-containment candidate: the query
`"a"` against the text `"xy"` has a matching substitution window. -/
theorem fuzzy_scan_contract_witness :
    (scoreCandidate "a".toList "xy".toList).isSome = true := by
  have h := fuzzy_scan_contract "a".toList "xy".toList (by decide)
  exact h.1.mpr
    ⟨1, by decide, by decide, by decide, 0, by decide, "substitution", 1, by decide,
      by decide⟩

/-- C3: a candidate whose normalized text contains the normalized query
as a contiguous substring contributes exactly the score `2 * query_len`
(the containment branch short-circuits, so the fuzzy matcher's outcome
never enters the contribution); in particular, on the corpus holding
exactly the line `"To be or not to be, that is the question"`, the query
`"to be"` yields that line with score 10 and the query `"to pe"` yields it
with score 8. -/
theorem containment_score_contract :
    (∀ (pn : Str) (s : Str × Str × Nat),
      pyInStr pn (normalize_text s.1) = true →
      candidateContribution pn s = [⟨s.1, s.2.1, s.2.2, 2 * (pn.length : Int)⟩]) ∧
    get_best_k_completions toBeSys "to be".toList =
      some [⟨"To be or not to be, that is the question".toList, "f.txt".toList, 0, 10⟩] ∧
    get_best_k_completions toBeSys "to pe".toList =
      some [⟨"To be or not to be, that is the question".toList, "f.txt".toList, 0, 8⟩] := by
  refine ⟨?_, by decide, by decide⟩
  intro pn s h
  unfold candidateContribution scoreCandidate
  rw [if_pos h]

/-- Witness for C3: the containment clause applied to the worked example
line, the containment hypothesis discharged by evaluation. -/
theorem containment_score_contract_witness :
    candidateContribution "to be".toList
        ("To be or not to be, that is the question".toList, "f.txt".toList, 0) =
      [⟨"To be or not to be, that is the question".toList, "f.txt".toList, 0, 10⟩] := by
  have h := containment_score_contract.1 "to be".toList
    ("To be or not to be, that is the question".toList, "f.txt".toList, 0) (by decide)
  rw [h]
  decide

/-! ## Ranking: sort order, dedup, truncation -/

theorem strLeB_total : ∀ a b : Str, strLeB a b = true ∨ strLeB b a = true
  | [], _ => Or.inl rfl
  | _ :: _, [] => Or.inr rfl
  | x :: xs, y :: ys => by
    by_cases hxy : x = y
    · subst hxy
      simpa [strLeB] using strLeB_total xs ys
    · rcases lt_or_gt_of_ne hxy with h | h
      · exact Or.inl (by simp [strLeB, hxy, h])
      · exact Or.inr (by simp [strLeB, Ne.symm hxy, h])

theorem strLeB_trans : ∀ a b c : Str,
    strLeB a b = true → strLeB b c = true → strLeB a c = true
  | [], _, _, _, _ => rfl
  | x :: xs, [], c, hab, _ => by simp [strLeB] at hab
  | x :: xs, y :: ys, [], _, hbc => by simp [strLeB] at hbc
  | x :: xs, y :: ys, z :: zs, hab, hbc => by
    by_cases hxy : x = y <;> by_cases hyz : y = z
    · subst hxy; subst hyz
      rw [strLeB] at hab hbc ⊢
      simp at hab hbc ⊢
      exact strLeB_trans _ _ _ hab hbc
    · subst hxy
      rw [strLeB] at hbc ⊢
      simp [hyz] at hbc ⊢
      simp [hbc]
    · subst hyz
      rw [strLeB] at hab ⊢
      simp [hxy] at hab ⊢
      simp [hab]
    · rw [strLeB] at hab hbc ⊢
      simp [hxy] at hab
      simp [hyz] at hbc
      have hxz : x < z := lt_trans hab hbc
      simp [ne_of_lt hxz, hxz]

instance : IsTotal AutoCompleteData resultLE where
  total x y := by
    unfold resultLE resultLEb
    rcases lt_trichotomy x.score y.score with h | h | h
    · right; simp [h]
    · rcases strLeB_total (lowerStr x.completed_sentence) (lowerStr y.completed_sentence)
        with hs | hs
      · left; simp [h, hs]
      · right; simp [h, hs]
    · left; simp [h]

instance : IsTrans AutoCompleteData resultLE where
  trans x y z := by
    unfold resultLE resultLEb
    intro hxy hyz
    simp only [Bool.or_eq_true, Bool.and_eq_true, decide_eq_true_eq] at hxy hyz ⊢
    rcases hxy with h1 | ⟨h1, hs1⟩ <;> rcases hyz with h2 | ⟨h2, hs2⟩
    · exact Or.inl (lt_trans h2 h1)
    · exact Or.inl (h2 ▸ h1)
    · exact Or.inl (h1 ▸ h2)
    · exact Or.inr ⟨h1.trans h2, strLeB_trans _ _ _ hs1 hs2⟩

theorem dedupLoop_eq_keepFirst :
    ∀ (rs : List AutoCompleteData) (seen : List Str) (n : Nat), n < 5 →
      dedupLoop rs seen n = (keepFirst rs seen).take (5 - n)
  | [], _, _, _ => by simp [dedupLoop, keepFirst]
  | r :: rs, seen, n, hn => by
    rw [dedupLoop, keepFirst]
    by_cases hc : seen.contains r.completed_sentence
    · rw [if_pos hc, if_pos hc, if_neg (by omega)]
      exact dedupLoop_eq_keepFirst rs seen n hn
    · rw [if_neg hc, if_neg hc]
      by_cases h5 : 5 ≤ n + 1
      · rw [if_pos h5]
        have : 5 - n = 1 := by omega
        rw [this]
        simp
      · rw [if_neg h5]
        rw [dedupLoop_eq_keepFirst rs _ (n + 1) (by omega)]
        have : 5 - n = (5 - (n + 1)) + 1 := by omega
        rw [this, List.take_succ_cons]

theorem keepFirst_sublist :
    ∀ (rs : List AutoCompleteData) (seen : List Str), (keepFirst rs seen).Sublist rs
  | [], _ => List.Sublist.refl _
  | r :: rs, seen => by
    rw [keepFirst]
    by_cases hc : seen.contains r.completed_sentence
    · rw [if_pos hc]
      exact (keepFirst_sublist rs seen).cons r
    · rw [if_neg hc]
      exact (keepFirst_sublist rs _).cons₂ r

theorem keepFirst_fresh :
    ∀ (rs : List AutoCompleteData) (seen : List Str) (r : AutoCompleteData),
      r ∈ keepFirst rs seen → seen.contains r.completed_sentence = false
  | [], _, _, h => by cases h
  | x :: rs, seen, r, h => by
    rw [keepFirst] at h
    by_cases hc : seen.contains x.completed_sentence
    · rw [if_pos hc] at h
      exact keepFirst_fresh rs seen r h
    · rw [if_neg hc] at h
      rcases List.mem_cons.mp h with rfl | hmem
      · simpa using hc
      · have := keepFirst_fresh rs _ r hmem
        simp only [List.contains_cons, Bool.or_eq_false_iff] at this
        exact this.2

theorem keepFirst_keys_nodup :
    ∀ (rs : List AutoCompleteData) (seen : List Str),
      (keepFirst rs seen).Pairwise
        (fun x y => x.completed_sentence ≠ y.completed_sentence)
  | [], _ => List.Pairwise.nil
  | x :: rs, seen => by
    rw [keepFirst]
    by_cases hc : seen.contains x.completed_sentence
    · rw [if_pos hc]
      exact keepFirst_keys_nodup rs seen
    · rw [if_neg hc]
      refine List.Pairwise.cons ?_ (keepFirst_keys_nodup rs _)
      intro y hy
      have := keepFirst_fresh rs _ y hy
      simp only [List.contains_cons, Bool.or_eq_false_iff] at this
      intro hxy
      have := this.1
      simp [hxy] at this

theorem mapM_option_mem {α β : Type} :
    ∀ (l : List α) (f : α → Option β) (ys : List β), l.mapM f = some ys →
      ∀ y ∈ ys, ∃ x ∈ l, f x = some y := by
  intro l
  induction l with
  | nil =>
    intro f ys h y hy
    rw [List.mapM_nil] at h
    cases h
    cases hy
  | cons x xs ih =>
    intro f ys h y hy
    rw [List.mapM_cons] at h
    rcases hfx : f x with _ | b <;> rw [hfx] at h
    · cases h
    · rcases hrest : xs.mapM f with _ | bs <;> rw [hrest] at h
      · cases h
      · have h' : b :: bs = ys := by simpa using h
        subst h'
        rcases List.mem_cons.mp hy with rfl | hmem
        · exact ⟨x, by simp, hfx⟩
        · rcases ih f bs hrest y hmem with ⟨x', hx', hfx'⟩
          exact ⟨x', by simp [hx'], hfx'⟩

theorem mapM_option_isSome {α β : Type} :
    ∀ (l : List α) (f : α → Option β), (∀ x ∈ l, (f x).isSome = true) →
      (l.mapM f).isSome = true := by
  intro l
  induction l with
  | nil => intro f _; rw [List.mapM_nil]; rfl
  | cons x xs ih =>
    intro f h
    rw [List.mapM_cons]
    have hx := h x (by simp)
    rcases hfx : f x with _ | b
    · rw [hfx] at hx
      cases hx
    · have htail := ih f (fun a ha => h a (by simp [ha]))
      rcases hrest : xs.mapM f with _ | bs
      · rw [hrest] at htail
        cases htail
      · rfl

theorem get_best_k_some_inv {acs : AutoCompleteSystem} {pre : Str}
    {l : List AutoCompleteData} (h : get_best_k_completions acs pre = some l) :
    l = [] ∨
    ∃ fw rest contribs, pySplit (normalize_text pre) = fw :: rest ∧
      (selectCandidates acs fw).mapM (fun idx =>
        (acs.sentences[idx]?).map (candidateContribution (normalize_text pre))) =
          some contribs ∧
      l = rankResults contribs.flatten := by
  unfold get_best_k_completions at h
  by_cases hpn : normalize_text pre = []
  · rw [if_pos hpn] at h
    exact Or.inl (Option.some.inj h).symm
  · rw [if_neg hpn] at h
    rcases hsp : pySplit (normalize_text pre) with _ | ⟨fw, rest⟩ <;> rw [hsp] at h
    · cases h
    · rcases Option.map_eq_some'.mp h with ⟨contribs, hmapm, hl⟩
      exact Or.inr ⟨fw, rest, contribs, rfl, hmapm, hl.symm⟩

theorem mem_get_best_k {acs : AutoCompleteSystem} {pre : Str}
    {l : List AutoCompleteData} {r : AutoCompleteData}
    (h : get_best_k_completions acs pre = some l) (hr : r ∈ l) :
    ∃ s : Str × Str × Nat, s ∈ acs.sentences ∧ r.completed_sentence = s.1 ∧
      scoreCandidate (normalize_text pre) (normalize_text s.1) = some r.score := by
  rcases get_best_k_some_inv h with rfl | ⟨fw, rest, contribs, hsp, hmapm, hl⟩
  · cases hr
  · subst hl
    unfold rankResults at hr
    rw [dedupLoop_eq_keepFirst _ _ 0 (by omega)] at hr
    have h1 : r ∈ List.insertionSort resultLE contribs.flatten :=
      (keepFirst_sublist _ _).mem (List.mem_of_mem_take hr)
    have h2 : r ∈ contribs.flatten :=
      (List.perm_insertionSort resultLE _).mem_iff.mp h1
    rcases List.mem_flatten.mp h2 with ⟨contrib, hcontrib, hrc⟩
    rcases mapM_option_mem _ _ _ hmapm contrib hcontrib with ⟨idx, _, hidx⟩
    rcases Option.map_eq_some'.mp hidx with ⟨s, hs, hcs⟩
    subst hcs
    unfold candidateContribution at hrc
    rcases hsc : scoreCandidate (normalize_text pre) (normalize_text s.1)
      with _ | sc <;> rw [hsc] at hrc
    · cases hrc
    · rcases List.mem_singleton.mp hrc with rfl
      refine ⟨s, ?_, rfl, hsc⟩
      rcases List.getElem?_eq_some_iff.mp hs with ⟨hlt, hget⟩
      rw [← hget]
      exact List.getElem_mem hlt

theorem resultLE_elim {x y : AutoCompleteData} (h : resultLE x y) :
    y.score ≤ x.score ∧ (x.score = y.score →
      strLeB (lowerStr x.completed_sentence) (lowerStr y.completed_sentence) = true) := by
  unfold resultLE resultLEb at h
  simp only [Bool.or_eq_true, Bool.and_eq_true, decide_eq_true_eq] at h
  rcases h with h | ⟨h1, h2⟩
  · exact ⟨le_of_lt h, fun he => absurd he (by omega)⟩
  · exact ⟨le_of_eq h1.symm, fun _ => h2⟩

/-- C4: for every built system and query, the returned list has at most 5
entries, is ordered by score descending with ties ordered by the original
sentence text compared case-insensitively ascending, contains no two
entries with the same `completed_sentence`, and is exactly the
first-occurrence deduplication of the sorted results truncated to 5
(duplicates are discarded before truncation). -/
theorem ranked_output_contract (acs : AutoCompleteSystem) (pre : Str)
    (l : List AutoCompleteData) (h : get_best_k_completions acs pre = some l) :
    l.length ≤ 5 ∧
    l.Pairwise (fun x y => y.score ≤ x.score ∧ (x.score = y.score →
      strLeB (lowerStr x.completed_sentence) (lowerStr y.completed_sentence) = true)) ∧
    l.Pairwise (fun x y => x.completed_sentence ≠ y.completed_sentence) ∧
    (l = [] ∨ ∃ results,
      l = (keepFirst (List.insertionSort resultLE results) []).take 5) := by
  rcases get_best_k_some_inv h with rfl | ⟨fw, rest, contribs, hsp, hmapm, hl⟩
  · exact ⟨by simp, by simp, by simp, Or.inl rfl⟩
  · have hrank : rankResults contribs.flatten =
        (keepFirst (List.insertionSort resultLE contribs.flatten) []).take 5 := by
      unfold rankResults
      rw [dedupLoop_eq_keepFirst _ _ 0 (by omega)]
    subst hl
    rw [hrank]
    refine ⟨List.length_take_le _ _, ?_, ?_, Or.inr ⟨contribs.flatten, rfl⟩⟩
    · have hs : List.Pairwise resultLE (List.insertionSort resultLE contribs.flatten) :=
        List.sorted_insertionSort resultLE _
      have hsub : ((keepFirst (List.insertionSort resultLE contribs.flatten) []).take
          5).Sublist (List.insertionSort resultLE contribs.flatten) :=
        (List.take_sublist _ _).trans (keepFirst_sublist _ _)
      exact (List.Pairwise.sublist hsub hs).imp resultLE_elim
    · exact List.Pairwise.sublist (List.take_sublist _ _) (keepFirst_keys_nodup _ _)

/-- Witness for C4 on the worked example system, the pipeline hypothesis
discharged by evaluation. -/
theorem ranked_output_contract_witness :
    ∃ l, get_best_k_completions toBeSys "to be".toList = some l ∧ l.length ≤ 5 := by
  refine ⟨[⟨"To be or not to be, that is the question".toList, "f.txt".toList, 0, 10⟩],
    by decide, ?_⟩
  exact (ranked_output_contract toBeSys "to be".toList _ (by decide)).1

/-! ## Score bounds -/

theorem penalty_for_le_ten (k : String) (pos : Nat) : penalty_for k pos ≤ 10 := by
  unfold penalty_for
  split_ifs with h1 h2 h3 h4 h5 h6 <;> try decide
  · have hp1 : 1 ≤ pos := by omega
    have hp5 : pos ≤ 5 := by omega
    interval_cases pos <;> decide
  · have hp1 : 1 ≤ pos := by omega
    have hp5 : pos ≤ 5 := by omega
    interval_cases pos <;> decide

theorem penalty_for_pos {k : String}
    (hk : k = "substitution" ∨ k = "insertion" ∨ k = "deletion") (pos : Nat) :
    1 ≤ penalty_for k pos := by
  unfold penalty_for
  split_ifs with h1 h2 h3 h4 h5 h6 <;> try decide
  · have hp1 : 1 ≤ pos := by omega
    have hp5 : pos ≤ 5 := by omega
    interval_cases pos <;> decide
  · have hp1 : 1 ≤ pos := by omega
    have hp5 : pos ≤ 5 := by omega
    interval_cases pos <;> decide
  · rcases hk with hk | hk | hk <;> simp [hk] at h1 h4

theorem firstEdit_kinds {pn sn : Str} {kp : String × Nat}
    (h : firstEdit pn sn = some kp) :
    kp.1 = "substitution" ∨ kp.1 = "insertion" ∨ kp.1 = "deletion" := by
  unfold firstEdit at h
  rcases List.exists_of_findSome?_eq_some h with ⟨L, _, hL⟩
  unfold tryWindows at hL
  by_cases hv : L = 0 ∨ sn.length < L
  · rw [if_pos hv] at hL
    cases hL
  · rw [if_neg hv] at hL
    rcases List.exists_of_findSome?_eq_some hL with ⟨st, _, hst⟩
    rcases hse : single_edit_match_info pn (windowAt sn st L) with _ | kp' <;>
      rw [hse] at hst <;> dsimp only at hst
    · cases hst
    · by_cases hk : kp'.1 = "exact"
      · rw [if_neg (by simp [hk])] at hst
        cases hst
      · rw [if_pos hk] at hst
        have hkp : kp' = kp := Option.some.inj hst
        subst hkp
        rcases single_edit_kinds pn (windowAt sn st L) with hnone | ⟨k2, p2, hsome, hkind⟩
        · rw [hse] at hnone
          cases hnone
        · rw [hse] at hsome
          have heq : kp' = (k2, p2) := Option.some.inj hsome
          subst heq
          rcases hkind with h1 | h1 | h1 | h1
          · exact absurd h1 hk
          · exact Or.inl h1
          · exact Or.inr (Or.inl h1)
          · exact Or.inr (Or.inr h1)

theorem scoreCandidate_bounds {pn sn : Str} {sc : Int}
    (h : scoreCandidate pn sn = some sc) :
    sc ≤ 2 * (pn.length : Int) ∧ 2 * (pn.length : Int) - 10 ≤ sc ∧
      (sc = 2 * (pn.length : Int) ↔ pyInStr pn sn = true) := by
  unfold scoreCandidate at h
  by_cases hin : pyInStr pn sn
  · rw [if_pos hin] at h
    have hsc : (2 * (pn.length : Int)) = sc := by
      simpa using Option.some.inj h
    subst hsc
    exact ⟨le_refl _, by omega, by simp [hin]⟩
  · rw [if_neg hin] at h
    rcases Option.map_eq_some'.mp h with ⟨kp, hfe, hsc⟩
    have hkinds := firstEdit_kinds hfe
    have hp1 : 1 ≤ penalty_for kp.1 kp.2 := penalty_for_pos hkinds kp.2
    have hp10 : penalty_for kp.1 kp.2 ≤ 10 := penalty_for_le_ten kp.1 kp.2
    have hin' : pyInStr pn sn = false := by simpa using hin
    refine ⟨by omega, by omega, ?_⟩
    rw [hin']
    constructor
    · intro he
      omega
    · intro hf
      cases hf

/-- Counterexample to C5 as stated: on the corpus holding exactly the
line `"xy"`, the query `"a"` (no index hit, full-corpus fallback, then a
substitution at position 1 against a length-1 window) is returned with
score `2·1 − 5 = −3`, which is negative. -/
theorem negative_score_counterexample :
    get_best_k_completions
        (build_from_folder emptySystem [("xy".toList, "f.txt".toList, 0)])
        "a".toList =
      some [⟨"xy".toList, "f.txt".toList, 0, -3⟩] ∧ (-3 : Int) < 0 :=
  ⟨by decide, by decide⟩

/-- C5 amended: returned scores are not always non-negative (short
queries can score below zero); what does hold is the lower bound
`score ≥ 2*query_len − 10`, since every penalty drawn from the current
tables is at most 10. -/
theorem score_lower_bound (acs : AutoCompleteSystem) (pre : Str)
    (l : List AutoCompleteData) (h : get_best_k_completions acs pre = some l) :
    ∀ r ∈ l, 2 * ((normalize_text pre).length : Int) - 10 ≤ r.score := by
  intro r hr
  rcases mem_get_best_k h hr with ⟨s, _, _, hsc⟩
  exact (scoreCandidate_bounds hsc).2.1

/-- Witness for C5's amended bound on the worked example, both
hypotheses discharged by evaluation. -/
theorem score_lower_bound_witness :
    2 * ((normalize_text "to be".toList).length : Int) - 10 ≤
      (⟨"To be or not to be, that is the question".toList, "f.txt".toList, 0,
        10⟩ : AutoCompleteData).score :=
  score_lower_bound toBeSys "to be".toList
    [⟨"To be or not to be, that is the question".toList, "f.txt".toList, 0, 10⟩]
    (by decide) _ (by decide)

/-- C10: every returned score is at most `2 * query_len`, with equality
exactly when the normalized query occurs as a contiguous substring of the
candidate's normalized text (every fuzzy match subtracts a strictly
positive penalty, as both tables hold only positive entries and clamping
preserves positivity). -/
theorem score_upper_bound_contract (acs : AutoCompleteSystem) (pre : Str)
    (l : List AutoCompleteData) (h : get_best_k_completions acs pre = some l) :
    ∀ r ∈ l, r.score ≤ 2 * ((normalize_text pre).length : Int) ∧
      (r.score = 2 * ((normalize_text pre).length : Int) ↔
        pyInStr (normalize_text pre) (normalize_text r.completed_sentence) = true) := by
  intro r hr
  rcases mem_get_best_k h hr with ⟨s, _, hcs, hsc⟩
  have hb := scoreCandidate_bounds hsc
  rw [hcs]
  exact ⟨hb.1, hb.2.2⟩

/-- Witness for C10 on the worked example: the containment match scores
exactly `2 * 5 = 10`. -/
theorem score_upper_bound_contract_witness :
    (⟨"To be or not to be, that is the question".toList, "f.txt".toList, 0,
        10⟩ : AutoCompleteData).score ≤
      2 * ((normalize_text "to be".toList).length : Int) :=
  (score_upper_bound_contract toBeSys "to be".toList
    [⟨"To be or not to be, that is the question".toList, "f.txt".toList, 0, 10⟩]
    (by decide) _ (by decide)).1

/-! ## Candidate selection and totality -/

theorem mem_pySetList (l : List Nat) (i : Nat) : i ∈ pySetList l ↔ i ∈ l := by
  unfold pySetList
  rw [List.mem_dedup]
  exact (List.perm_insertionSort _ l).mem_iff

theorem selectCandidates_eq (acs : AutoCompleteSystem) (w : Str) (hw : w ≠ []) :
    selectCandidates acs w =
      (if lookupIndex acs.word_index (if w.length ≤ 2 then w else w.take 3) ≠ [] then
        pySetList (lookupIndex acs.word_index (if w.length ≤ 2 then w else w.take 3))
      else pySetList (List.range acs.sentences.length)) := by
  unfold selectCandidates
  have hlen : 1 ≤ w.length := List.length_pos.mpr hw
  by_cases h2 : w.length ≤ 2
  · rw [if_pos h2, if_pos (show w.length = 1 ∨ w.length = 2 by omega)]
  · rw [if_neg h2, if_neg (show ¬(w.length = 1 ∨ w.length = 2) by omega),
      if_pos (show 3 ≤ w.length by omega)]

/-- C6: for a non-empty anchor `w` (the first whitespace-delimited token
of the normalized query), the candidate set is determined by exactly one
index key — `w` itself when `len w ≤ 2`, the first 3 characters of `w`
otherwise: the set is that entry when non-empty, and the full range of
sentence ids otherwise; replacing the index by any other index that
agrees on that one key (over a corpus of the same size) leaves the
candidate set unchanged, so no other key is consulted. -/
theorem candidate_selection_contract (acs : AutoCompleteSystem) (w : Str)
    (hw : w ≠ []) :
    (∀ i, i ∈ selectCandidates acs w ↔
      (if lookupIndex acs.word_index (if w.length ≤ 2 then w else w.take 3) ≠ [] then
        i ∈ lookupIndex acs.word_index (if w.length ≤ 2 then w else w.take 3)
      else i < acs.sentences.length)) ∧
    (∀ acs' : AutoCompleteSystem, acs'.sentences.length = acs.sentences.length →
      lookupIndex acs'.word_index (if w.length ≤ 2 then w else w.take 3) =
        lookupIndex acs.word_index (if w.length ≤ 2 then w else w.take 3) →
      selectCandidates acs' w = selectCandidates acs w) := by
  constructor
  · intro i
    rw [selectCandidates_eq acs w hw]
    by_cases hlook :
        lookupIndex acs.word_index (if w.length ≤ 2 then w else w.take 3) ≠ []
    · rw [if_pos hlook, if_pos hlook]
      exact mem_pySetList _ i
    · rw [if_neg hlook, if_neg hlook]
      rw [mem_pySetList, List.mem_range]
  · intro acs' hn hl
    rw [selectCandidates_eq acs' w hw, selectCandidates_eq acs w hw, hn, hl]

/-- Witness for C6: the anchor `"to"` of the worked example is looked up
directly and selects sentence 0. -/
theorem candidate_selection_contract_witness :
    0 ∈ selectCandidates toBeSys "to".toList := by
  have h := (candidate_selection_contract toBeSys "to".toList (by decide)).1 0
  exact h.mpr (by decide)

theorem pySplit_normalize_eq (s : Str) :
    pySplit (normalize_text s) =
      pySplit ((s.filter (fun c => !isPunctChar c)).map pyLowerChar) := by
  unfold normalize_text
  exact pySplit_joinSpace (fun w hw =>
    ⟨(mem_pySplit_props w hw).1, fun c hc => ((mem_pySplit_props w hw).2 c hc).1⟩)

theorem mem_lookupIndex {idx : List (Str × List Nat)} {k : Str} {i : Nat}
    (h : i ∈ lookupIndex idx k) : ∃ e ∈ idx, i ∈ e.2 := by
  unfold lookupIndex at h
  rcases hf : idx.find? (fun e => e.1 == k) with _ | e <;> rw [hf] at h
  · cases h
  · exact ⟨e, List.mem_of_find?_eq_some hf, h⟩

/-- C7: the query path is total. For every well-formed state and every
query string, `get_best_k_completions` returns a list (the `Option`
models the two fallible list accesses on the query path — the first word
of the split and the sentence lookup by candidate id — so `some` means no
index taken is ever out of bounds; the penalty lookup is total by
clamping); empty and whitespace-only queries return the empty list. -/
theorem query_total (acs : AutoCompleteSystem) (hwf : WF acs) (pre : Str) :
    (∃ l, get_best_k_completions acs pre = some l) ∧
    (normalize_text pre = [] → get_best_k_completions acs pre = some []) := by
  refine ⟨?_, fun hpn => by unfold get_best_k_completions; rw [if_pos hpn]⟩
  unfold get_best_k_completions
  by_cases hpn : normalize_text pre = []
  · rw [if_pos hpn]
    exact ⟨[], rfl⟩
  · rw [if_neg hpn]
    rcases hsp : pySplit (normalize_text pre) with _ | ⟨fw, rest⟩
    · exfalso
      apply hpn
      rw [pySplit_normalize_eq] at hsp
      unfold normalize_text
      rw [hsp]
      rfl
    · have hfw : fw ≠ [] := by
        have : fw ∈ pySplit (normalize_text pre) := by rw [hsp]; simp
        exact (mem_pySplit_props fw this).1
      have hcands : ∀ idx ∈ selectCandidates acs fw, idx < acs.sentences.length := by
        intro idx hidx
        rw [selectCandidates_eq acs fw hfw] at hidx
        by_cases hlook :
            lookupIndex acs.word_index (if fw.length ≤ 2 then fw else fw.take 3) ≠ []
        · rw [if_pos hlook, mem_pySetList] at hidx
          rcases mem_lookupIndex hidx with ⟨e, he, hie⟩
          exact hwf e he idx hie
        · rw [if_neg hlook, mem_pySetList, List.mem_range] at hidx
          exact hidx
      have hmm := mapM_option_isSome (selectCandidates acs fw)
        (fun idx => (acs.sentences[idx]?).map
          (candidateContribution (normalize_text pre)))
        (fun idx hidx => by
          have hlt := hcands idx hidx
          dsimp only
          rw [List.getElem?_eq_getElem hlt]
          rfl)
      rcases Option.isSome_iff_exists.mp hmm with ⟨contribs, hc⟩
      dsimp only
      rw [hc]
      exact ⟨_, rfl⟩

/-- Witness for C7: totality applied to the worked example system (its
well-formedness checked by evaluation) at a query whose anchor misses the
index, exercising the full-corpus fallback. -/
theorem query_total_witness :
    ∃ l, get_best_k_completions toBeSys "zzz".toList = some l :=
  (query_total toBeSys (by unfold WF; decide) "zzz".toList).1

/-! ## Index build: key-shape invariant -/

theorem keys_appendIndex (idx : List (Str × List Nat)) (k : Str) (sid : Nat)
    (k' : Str) :
    k' ∈ indexKeys (appendIndex idx k sid) ↔ k' ∈ indexKeys idx ∨ k' = k := by
  induction idx with
  | nil => simp [appendIndex, indexKeys]
  | cons e rest ih =>
    rw [appendIndex]
    by_cases he : e.1 = k
    · rw [if_pos he]
      simp only [indexKeys, List.map_cons, List.mem_cons] at ih ⊢
      rw [he]
      tauto
    · rw [if_neg he]
      simp only [indexKeys, List.map_cons, List.mem_cons] at ih ⊢
      rw [ih]
      tauto

theorem keys_foldl_appendIndex (g : Nat → Str) (sid : Nat) :
    ∀ (js : List Nat) (idx : List (Str × List Nat)) (k' : Str),
      k' ∈ indexKeys (js.foldl (fun acc j => appendIndex acc (g j) sid) idx) ↔
        k' ∈ indexKeys idx ∨ ∃ j ∈ js, k' = g j
  | [], idx, k' => by simp
  | j :: js, idx, k' => by
    rw [List.foldl_cons, keys_foldl_appendIndex g sid js _ k', keys_appendIndex]
    constructor
    · rintro ((h | h) | ⟨j2, hj2, hk⟩)
      · exact Or.inl h
      · exact Or.inr ⟨j, by simp, h⟩
      · exact Or.inr ⟨j2, by simp [hj2], hk⟩
    · rintro (h | ⟨j2, hj2, hk⟩)
      · exact Or.inl (Or.inl h)
      · rcases List.mem_cons.mp hj2 with rfl | h2
        · exact Or.inl (Or.inr hk)
        · exact Or.inr ⟨j2, h2, hk⟩

theorem keys_indexWord (idx : List (Str × List Nat)) (w : Str) (sid : Nat)
    (k' : Str) :
    k' ∈ indexKeys (indexWord idx w sid) ↔ k' ∈ indexKeys idx ∨ WordKey w k' := by
  unfold indexWord WordKey
  by_cases h12 : w.length = 1 ∨ w.length = 2
  · rw [if_pos h12, keys_appendIndex]
    constructor
    · rintro (h | h)
      · exact Or.inl h
      · exact Or.inr (Or.inl ⟨h12, h⟩)
    · rintro (h | (⟨_, hk⟩ | ⟨h3, _⟩))
      · exact Or.inl h
      · exact Or.inr hk
      · exfalso; omega
  · rw [if_neg h12]
    by_cases h3 : 3 ≤ w.length
    · rw [if_pos h3,
        keys_foldl_appendIndex (fun j => windowAt w j 3) sid
          (List.range (w.length - 3 + 1)) idx k']
      constructor
      · rintro (h | ⟨j, hj, hk⟩)
        · exact Or.inl h
        · rw [List.mem_range] at hj
          exact Or.inr (Or.inr ⟨h3, j, by omega, hk⟩)
      · rintro (h | (⟨h12', _⟩ | ⟨_, j, hj, hk⟩))
        · exact Or.inl h
        · exact absurd h12' h12
        · exact Or.inr ⟨j, by rw [List.mem_range]; omega, hk⟩
    · rw [if_neg h3]
      constructor
      · exact Or.inl
      · rintro (h | (⟨h12', _⟩ | ⟨h3', _⟩))
        · exact h
        · exact absurd h12' h12
        · exact absurd h3' h3

theorem keys_foldl_indexWord (sid : Nat) :
    ∀ (ws : List Str) (idx : List (Str × List Nat)) (k' : Str),
      k' ∈ indexKeys (ws.foldl (fun acc w => indexWord acc w sid) idx) ↔
        k' ∈ indexKeys idx ∨ ∃ w ∈ ws, WordKey w k'
  | [], idx, k' => by simp
  | w :: ws, idx, k' => by
    rw [List.foldl_cons, keys_foldl_indexWord sid ws _ k', keys_indexWord]
    constructor
    · rintro ((h | h) | ⟨w2, hw2, hk⟩)
      · exact Or.inl h
      · exact Or.inr ⟨w, by simp, h⟩
      · exact Or.inr ⟨w2, by simp [hw2], hk⟩
    · rintro (h | ⟨w2, hw2, hk⟩)
      · exact Or.inl (Or.inl h)
      · rcases List.mem_cons.mp hw2 with rfl | h2
        · exact Or.inl (Or.inr hk)
        · exact Or.inr ⟨w2, h2, hk⟩

theorem keys_addLine (sys : AutoCompleteSystem) (line src : Str) (n : Nat)
    (k' : Str) :
    k' ∈ indexKeys (addLine sys line src n).word_index ↔
      k' ∈ indexKeys sys.word_index ∨ LineKey line k' := by
  unfold addLine LineKey
  by_cases hstrip : pyStrip line = []
  · rw [if_pos hstrip, hstrip]
    have hnil : pySplit (normalize_text ([] : Str)) = [] := rfl
    simp [hnil]
  · rw [if_neg hstrip]
    exact keys_foldl_indexWord sys.sentences.length
      (pySplit (normalize_text (pyStrip line))) sys.word_index k'

theorem keys_build_from_folder :
    ∀ (lines : List (Str × Str × Nat)) (sys : AutoCompleteSystem) (k' : Str),
      k' ∈ indexKeys (build_from_folder sys lines).word_index ↔
        k' ∈ indexKeys sys.word_index ∨ ∃ t ∈ lines, LineKey t.1 k'
  | [], sys, k' => by simp [build_from_folder]
  | t :: ts, sys, k' => by
    rw [build_from_folder, List.foldl_cons]
    rw [show ts.foldl (fun acc t => addLine acc t.1 t.2.1 t.2.2)
        (addLine sys t.1 t.2.1 t.2.2) =
      build_from_folder (addLine sys t.1 t.2.1 t.2.2) ts from rfl]
    rw [keys_build_from_folder ts _ k', keys_addLine]
    constructor
    · rintro ((h | h) | ⟨t2, ht2, hk⟩)
      · exact Or.inl h
      · exact Or.inr ⟨t, by simp, h⟩
      · exact Or.inr ⟨t2, by simp [ht2], hk⟩
    · rintro (h | ⟨t2, ht2, hk⟩)
      · exact Or.inl (Or.inl h)
      · rcases List.mem_cons.mp ht2 with rfl | h2
        · exact Or.inl (Or.inr hk)
        · exact Or.inr ⟨t2, h2, hk⟩

theorem windowAt_length_three {w : Str} {j : Nat} (h : j + 3 ≤ w.length) :
    (windowAt w j 3).length = 3 := by
  unfold windowAt
  rw [List.length_take, List.length_drop]
  omega

theorem wordKey_length {w k : Str} (h : WordKey w k) : k.length ≤ 3 := by
  rcases h with ⟨h12, rfl⟩ | ⟨_, j, hj, rfl⟩
  · omega
  · rw [windowAt_length_three hj]

/-- C8: after any corpus build from the empty system, the inverted index
holds exactly the keys contributed by the two-tier rule — every key has
length at most 3, keys of length 1 or 2 are exactly the short words
inserted whole, keys of length 3 are exactly the contiguous 3-character
windows of words of length ≥ 3 — and the keys already present in any
state survive every further build step. -/
theorem index_key_invariant (lines : List (Str × Str × Nat)) :
    (∀ k, k ∈ indexKeys (build_from_folder emptySystem lines).word_index ↔
      ∃ t ∈ lines, LineKey t.1 k) ∧
    (∀ k ∈ indexKeys (build_from_folder emptySystem lines).word_index,
      k.length ≤ 3) ∧
    (∀ k, k.length = 1 ∨ k.length = 2 →
      (k ∈ indexKeys (build_from_folder emptySystem lines).word_index ↔
        ∃ t ∈ lines, ∃ w ∈ pySplit (normalize_text (pyStrip t.1)),
          (w.length = 1 ∨ w.length = 2) ∧ k = w)) ∧
    (∀ k, k.length = 3 →
      (k ∈ indexKeys (build_from_folder emptySystem lines).word_index ↔
        ∃ t ∈ lines, ∃ w ∈ pySplit (normalize_text (pyStrip t.1)),
          3 ≤ w.length ∧ ∃ j, j + 3 ≤ w.length ∧ k = windowAt w j 3)) ∧
    (∀ (sys : AutoCompleteSystem) (k : Str), k ∈ indexKeys sys.word_index →
      k ∈ indexKeys (build_from_folder sys lines).word_index) := by
  have hbase : ∀ k, k ∈ indexKeys (build_from_folder emptySystem lines).word_index ↔
      ∃ t ∈ lines, LineKey t.1 k := by
    intro k
    rw [keys_build_from_folder lines emptySystem k]
    simp [emptySystem, indexKeys]
  refine ⟨hbase, ?_, ?_, ?_, ?_⟩
  · intro k hk
    rcases (hbase k).mp hk with ⟨t, _, w, _, hwk⟩
    exact wordKey_length hwk
  · intro k hk12
    rw [hbase k]
    constructor
    · rintro ⟨t, ht, w, hw, hwk⟩
      rcases hwk with ⟨h12, rfl⟩ | ⟨_, j, hj, rfl⟩
      · exact ⟨t, ht, k, hw, h12, rfl⟩
      · rw [windowAt_length_three hj] at hk12
        omega
    · rintro ⟨t, ht, w, hw, h12, hkw⟩
      exact ⟨t, ht, w, hw, Or.inl ⟨h12, hkw⟩⟩
  · intro k hk3
    rw [hbase k]
    constructor
    · rintro ⟨t, ht, w, hw, hwk⟩
      rcases hwk with ⟨h12, rfl⟩ | ⟨h3, j, hj, rfl⟩
      · omega
      · exact ⟨t, ht, w, hw, h3, j, hj, rfl⟩
    · rintro ⟨t, ht, w, hw, h3, j, hj, hkw⟩
      exact ⟨t, ht, w, hw, Or.inr ⟨h3, j, hj, hkw⟩⟩
  · intro sys k hk
    exact (keys_build_from_folder lines sys k).mpr (Or.inl hk)

/-- Witness for C8: the trigram `"tha"` of the word `"that"` is a key of
the index built from the worked example line, via the length-3 clause,
every hypothesis discharged by evaluation. -/
theorem index_key_invariant_witness :
    "tha".toList ∈ indexKeys (build_from_folder emptySystem
      [("To be or not to be, that is the question".toList, "f.txt".toList,
        0)]).word_index := by
  have h := index_key_invariant
    [("To be or not to be, that is the question".toList, "f.txt".toList, 0)]
  exact (h.2.2.2.1 "tha".toList (by decide)).mpr
    ⟨("To be or not to be, that is the question".toList, "f.txt".toList, 0),
      by simp, "that".toList, by decide, by decide, 0, by decide, by decide⟩
